import Mathlib

/-!
# Verification of the tabular2 table-rendering library

Shallow embedding of `src/lib.rs` (crate `tabular2`): a fixed-width,
alignment-aware monospaced table renderer with a two-phase (header
phase / row phase) builder.

Strings are modelled as `List Char`.  Rust functions that can panic
(`expect` in `width`, the unchecked `usize` subtraction in `format`)
are modelled as `Option`-valued functions where `none` marks the panic
(process abort); the library has no recoverable-error channel at all.
-/

namespace Tabular2

/-- Strings are modelled as lists of characters. -/
abbrev Str := List Char

/-- The ESC character, `\x1b`, which starts a terminal escape sequence. -/
def escChar : Char := Char.ofNat 27

/-- Final byte of an ANSI CSI sequence: `0x40 ..= 0x7E` (e.g. `m` in a color
code `ESC [ 3 1 m`). -/
def isCSIFinal (c : Char) : Bool := 64 ≤ c.toNat && c.toNat ≤ 126

/-- Modelled from the spec: escape-sequence stripping (the `strip_ansi_escapes`
crate is external to this repository).  Per the spec, width measurement must
"strip all escape sequences before measuring", and stripping "fails due to
malformed input" when it "cannot parse the input".  The model recognises
ANSI CSI color sequences `ESC [ ... finalByte`; an ESC that does not open a
parsable sequence (no `[`, or the input ends inside the sequence) is a
malformed escape sequence and stripping returns `none`.
The `Bool` argument is the parser mode: `false` = plain text,
`true` = inside a CSI sequence. -/
def stripGo : Bool → Str → Option Str
  | false, [] => some []
  | true, [] => none
  | false, c :: cs =>
    if c = escChar then
      match cs with
      | '[' :: cs₁ => stripGo true cs₁
      | _ => none
    else
      (stripGo false cs).map (c :: ·)
  | true, c :: cs =>
    if isCSIFinal c then stripGo false cs else stripGo true cs

/-- Strip escape sequences from a string; `none` on malformed input. -/
def stripEscapes (s : Str) : Option Str := stripGo false s

/-- Modelled from the spec: visual width of one character (the
`unicode_width` crate is external to this repository).  Per the spec:
"wide glyphs count as 2 columns, combining/zero-width marks count as 0,
typical Latin text counts 1 per character".  Combining marks are modelled by
the main combining-diacritics block, wide glyphs by the common East-Asian
wide/fullwidth blocks. -/
def charWidth (c : Char) : Nat :=
  if 0x300 ≤ c.toNat ∧ c.toNat ≤ 0x36F then 0
  else if (0x1100 ≤ c.toNat ∧ c.toNat ≤ 0x115F) ∨
          (0x2E80 ≤ c.toNat ∧ c.toNat ≤ 0x303E) ∨
          (0x3041 ≤ c.toNat ∧ c.toNat ≤ 0x33FF) ∨
          (0x3400 ≤ c.toNat ∧ c.toNat ≤ 0x4DBF) ∨
          (0x4E00 ≤ c.toNat ∧ c.toNat ≤ 0x9FFF) ∨
          (0xAC00 ≤ c.toNat ∧ c.toNat ≤ 0xD7A3) ∨
          (0xF900 ≤ c.toNat ∧ c.toNat ≤ 0xFAFF) ∨
          (0xFF00 ≤ c.toNat ∧ c.toNat ≤ 0xFF60) ∨
          (0xFFE0 ≤ c.toNat ∧ c.toNat ≤ 0xFFE6) then 2
  else 1

/-- Visual width of escape-free text: sum of the character widths. -/
def textWidth (s : Str) : Nat := (s.map charWidth).sum

/-- `fn width(s: &str) -> usize` from `src/lib.rs`: strip escape sequences,
then measure the remainder's visual width.  The source calls
`.expect("Failed to strip escape sequences")`, so a stripping failure is a
panic (process abort), modelled as `none`. -/
def width (s : Str) : Option Nat := (stripEscapes s).map textWidth

/-- Possible outcomes of running `width`, distinguishing a value, a
recoverable error surfaced to the caller, and a panic (process abort).
The source's `width` returns a plain `usize` and panics via `expect`;
it has no error channel, so `recoverableError` is never produced. -/
inductive WidthOutcome where
  | value : Nat → WidthOutcome
  | recoverableError : Str → WidthOutcome
  | panicked : WidthOutcome
  deriving DecidableEq, Repr

/-- Outcome of `width` on a given string, per the source: a value when
stripping succeeds, a panic (`expect`) when it fails; never a recoverable
error. -/
def widthRun (s : Str) : WidthOutcome :=
  match stripEscapes s with
  | some t => .value (textWidth t)
  | none => .panicked

/-- `enum Alignment` from `src/lib.rs`. -/
inductive Alignment where
  | Left
  | Right
  | Center
  deriving DecidableEq, Repr

/-- `struct Header` from `src/lib.rs`. -/
structure Header where
  text : Str
  alignment : Alignment
  deriving DecidableEq, Repr

/-- `impl Into<Header> for &str`: plain text becomes a left-aligned header. -/
def Header.ofText (s : Str) : Header := ⟨s, .Left⟩

/-- `struct Row<const N: usize>` from `src/lib.rs` (the const parameter `N`
is phantom: the cell list is unbounded). -/
structure Row where
  cells : List Str
  deriving DecidableEq, Repr

/-- `Row::new()`. -/
def Row.new : Row := ⟨[]⟩

/-- `Row::cell`: append one cell. -/
def Row.cell (r : Row) (c : Str) : Row := ⟨r.cells ++ [c]⟩

/-- `struct Table<T, const N: usize>` from `src/lib.rs`.  The phase marker
`T` (`ModifyHeader` / `ModifyRows`) is `PhantomData` in the source — both
phases share this storage — so it is tracked separately (see `Phase` and
`Reachable`), not in the structure. -/
structure Table where
  headers : List Header
  column_widths : List Nat
  rows : List (List Str)
  skip_header : Bool
  deriving DecidableEq, Repr

/-- `Table::update_widths`: fold each cell's visual width into the running
column maxima, pairing cells with width slots positionally and stopping at
the shorter sequence (`zip`).  `none` marks a `width` panic. -/
def update_widths : List Nat → List Str → Option (List Nat)
  | ws, [] => some ws
  | [], _ :: _ => some []
  | w :: ws, c :: cs =>
    match width c with
    | none => none
    | some cw =>
      match update_widths ws cs with
      | none => none
      | some rest => some (max w cw :: rest)

/-- `Table::<ModifyHeader, N>::new()`. -/
def Table.new : Table :=
  { headers := [], column_widths := [], rows := [], skip_header := false }

/-- `Table::<ModifyHeader, N>::header`: measure the header text's width
(possible panic), append the header, seed its column width slot. -/
def Table.headerOp (t : Table) (h : Header) : Option Table :=
  match width h.text with
  | none => none
  | some w =>
    some { t with
           headers := t.headers ++ [h],
           column_widths := t.column_widths ++ [w] }

/-- `Table::<ModifyHeader, N>::row`: the implicit header→row phase
transition.  Updates column widths from the row, and the resulting table's
row list is `vec![row.cells]` — exactly this one row. -/
def Table.rowFromHeader (t : Table) (r : Row) : Option Table :=
  match update_widths t.column_widths r.cells with
  | none => none
  | some ws =>
    some { headers := t.headers,
           column_widths := ws,
           rows := [r.cells],
           skip_header := t.skip_header }

/-- `Table::<ModifyHeader, N>::end_header`: move to row phase with
`rows: Vec::new()`; headers and column widths carried over unchanged. -/
def Table.end_header (t : Table) : Table :=
  { t with rows := [] }

/-- `Table::<ModifyRows, N>::row`: update column widths, append the row. -/
def Table.rowOp (t : Table) (r : Row) : Option Table :=
  match update_widths t.column_widths r.cells with
  | none => none
  | some ws =>
    some { t with column_widths := ws, rows := t.rows ++ [r.cells] }

/-- `n` spaces. -/
def spacesL (n : Nat) : Str := List.replicate n ' '

/-- `fn format(s, target_width, alignment)` from `src/lib.rs`: floor the
target width at 8, pad `s` to it per the alignment.  The source computes
`target_width - width` on `usize` with no clamp: when `width(s)` exceeds the
floored target the subtraction underflows and the process panics, modelled
as `none` (as is a `width` panic). -/
def format (s : Str) (target_width : Nat) (alignment : Alignment) : Option Str :=
  match width s with
  | none => none
  | some w =>
    let tw := max target_width 8
    if w ≤ tw then
      let padding := tw - w
      match alignment with
      | .Left => some (s ++ spacesL padding)
      | .Right => some (spacesL padding ++ s)
      | .Center =>
        let l := padding / 2
        let r := padding - l
        some (spacesL l ++ s ++ spacesL r)
    else none

/-- The header line's fields from `Display::fmt`: zip headers with column
widths (stopping at the shorter), format each per its own alignment, emit
one trailing space after every field. -/
def renderHeaderFields : List Header → List Nat → Option Str
  | h :: hs, w :: ws =>
    match format h.text w h.alignment with
    | none => none
    | some f =>
      match renderHeaderFields hs ws with
      | none => none
      | some rest => some (f ++ ' ' :: rest)
  | _, _ => some []

/-- One data row's fields from `Display::fmt`: zip cells with column widths
(stopping at the shorter), format each cell with `Alignment::Left`, emit one
trailing space after every field. -/
def renderRowFields : List Str → List Nat → Option Str
  | c :: cs, w :: ws =>
    match format c w .Left with
    | none => none
    | some f =>
      match renderRowFields cs ws with
      | none => none
      | some rest => some (f ++ ' ' :: rest)
  | _, _ => some []

/-- All data-row lines from `Display::fmt`, each terminated by `writeln!`. -/
def renderRows (ws : List Nat) : List (List Str) → Option Str
  | [] => some []
  | r :: rs =>
    match renderRowFields r ws with
    | none => none
    | some line =>
      match renderRows ws rs with
      | none => none
      | some rest => some (line ++ '\n' :: rest)

/-- `impl Display for Table<ModifyRows>`: the header line (unless
`skip_header`), then the row lines. -/
def render (t : Table) : Option Str :=
  match (if t.skip_header then some [] else
          (renderHeaderFields t.headers t.column_widths).map (· ++ ['\n'])) with
  | none => none
  | some hl =>
    match renderRows t.column_widths t.rows with
    | none => none
    | some rl => some (hl ++ rl)

/-- Builder phases: the source's `ModifyHeader` / `ModifyRows` type-level
markers. -/
inductive Phase where
  | headerPhase
  | rowPhase
  deriving DecidableEq, Repr

/-- Tables reachable through the public interface (`new`, `header`, `row`
from either phase, `end_header`), respecting the phase typing of
`src/lib.rs`. -/
inductive Reachable : Phase → Table → Prop where
  | new : Reachable .headerPhase Table.new
  | header {t h t'} : Reachable .headerPhase t → Table.headerOp t h = some t' →
      Reachable .headerPhase t'
  | firstRow {t r t'} : Reachable .headerPhase t → Table.rowFromHeader t r = some t' →
      Reachable .rowPhase t'
  | endHeader {t} : Reachable .headerPhase t → Reachable .rowPhase t.end_header
  | row {t r t'} : Reachable .rowPhase t → Table.rowOp t r = some t' →
      Reachable .rowPhase t'

/-- Apply a sequence of `header` calls. -/
def addHeaders : Table → List Header → Option Table
  | t, [] => some t
  | t, h :: hs =>
    match t.headerOp h with
    | none => none
    | some t' => addHeaders t' hs

/-- Apply a sequence of row-phase `row` calls. -/
def addRows : Table → List Row → Option Table
  | t, [] => some t
  | t, r :: rs =>
    match t.rowOp r with
    | none => none
    | some t' => addRows t' rs

/-- Build a table through the public interface: `new`, the given `header`
calls, `end_header`, then the given `row` calls. -/
def buildTable (hs : List Header) (rs : List Row) : Option Table :=
  match addHeaders Table.new hs with
  | none => none
  | some t => addRows t.end_header rs

/-- The widths of a list of header texts (`none` if any measurement
panics). -/
def widthsOf : List Header → Option (List Nat)
  | [] => some []
  | h :: hs =>
    match width h.text with
    | none => none
    | some w =>
      match widthsOf hs with
      | none => none
      | some ws => some (w :: ws)

/-- The cells appearing in column `i` across a sequence of rows (rows too
short to reach column `i` contribute nothing). -/
def colSeen (rs : List Row) (i : Nat) : List Str :=
  rs.filterMap (fun r => r.cells[i]?)

/-- Running maximum of `seed` and the visual widths of `cs` (`none` if any
width measurement panics). -/
def maxWidthFrom (seed : Nat) : List Str → Option Nat
  | [] => some seed
  | c :: cs =>
    match width c with
    | none => none
    | some w => maxWidthFrom (max seed w) cs

/-- Replace every header's alignment by `a`, leaving everything else
unchanged. -/
def setAlignments (t : Table) (a : Alignment) : Table :=
  { t with headers := t.headers.map (fun h => ⟨h.text, a⟩) }

/-- Every cell of `cs` paired positionally with a width slot of `ws` has a
well-defined visual width bounded by that slot. -/
def pairedLE (cs : List Str) (ws : List Nat) : Prop :=
  ∀ (i : Nat) (c : Str) (w : Nat),
    cs[i]? = some c → ws[i]? = some w → ∃ n, width c = some n ∧ n ≤ w

/-! ## Basic lemmas about stripping and width -/

theorem charWidth_space : charWidth ' ' = 1 := by decide

theorem space_ne_esc : ' ' ≠ escChar := by decide

theorem stripGo_nil_false : stripGo false [] = some [] := by rw [stripGo.eq_def]

theorem stripGo_nil_true : stripGo true [] = none := by rw [stripGo.eq_def]

theorem stripGo_esc_open (cs₁ : Str) :
    stripGo false (escChar :: '[' :: cs₁) = stripGo true cs₁ := by
  rw [stripGo.eq_def]
  dsimp only
  rw [if_pos rfl]
  rfl

theorem stripGo_esc_bad {cs : Str} (h : ∀ cs₁, cs ≠ '[' :: cs₁) :
    stripGo false (escChar :: cs) = none := by
  rw [stripGo.eq_def]
  dsimp only
  rw [if_pos rfl]
  split
  · rename_i cs₁
    exact absurd rfl (h cs₁)
  · rfl

theorem stripGo_false_cons {c : Char} (hesc : ¬c = escChar) (cs : Str) :
    stripGo false (c :: cs) = (stripGo false cs).map (c :: ·) := by
  rw [stripGo.eq_def]
  dsimp only
  rw [if_neg hesc]

theorem stripGo_true_cons (c : Char) (cs : Str) :
    stripGo true (c :: cs) =
      if isCSIFinal c then stripGo false cs else stripGo true cs := by
  rw [stripGo.eq_def]

theorem stripGo_append {m : Bool} {xs t : Str} (ys : Str)
    (h : stripGo m xs = some t) :
    stripGo m (xs ++ ys) = (stripGo false ys).map (t ++ ·) := by
  induction m, xs using stripGo.induct generalizing t with
  | case1 =>
    rw [stripGo_nil_false] at h
    cases h
    simp
  | case2 =>
    rw [stripGo_nil_true] at h
    exact absurd h (by simp)
  | case3 cs₁ ih =>
    rw [stripGo_esc_open] at h
    rw [show (escChar :: '[' :: cs₁) ++ ys = escChar :: '[' :: (cs₁ ++ ys) from rfl,
      stripGo_esc_open]
    exact ih h
  | case4 cs hshape =>
    rw [stripGo_esc_bad (fun cs₁ hh => hshape cs₁ hh)] at h
    exact absurd h (by simp)
  | case5 c cs hesc ih =>
    rw [stripGo_false_cons hesc] at h
    rw [List.cons_append, stripGo_false_cons hesc]
    rcases hmap : stripGo false cs with _ | t₁
    · rw [hmap] at h
      exact absurd h (by simp)
    · rw [hmap] at h
      simp only [Option.map_some'] at h
      cases h
      rw [ih hmap]
      cases stripGo false ys <;> simp
  | case6 c cs hfin ih =>
    rw [List.cons_append, stripGo_true_cons, if_pos hfin]
    rw [stripGo_true_cons, if_pos hfin] at h
    exact ih h
  | case7 c cs hfin ih =>
    rw [List.cons_append, stripGo_true_cons, if_neg hfin]
    rw [stripGo_true_cons, if_neg hfin] at h
    exact ih h

theorem stripGo_spaces (n : Nat) : stripGo false (spacesL n) = some (spacesL n) := by
  induction n with
  | zero => exact stripGo_nil_false
  | succ k ih =>
    rw [show spacesL (k + 1) = ' ' :: spacesL k from rfl,
      stripGo_false_cons space_ne_esc, ih]
    rfl

theorem textWidth_append (s t : Str) :
    textWidth (s ++ t) = textWidth s + textWidth t := by
  simp [textWidth]

theorem textWidth_spaces (n : Nat) : textWidth (spacesL n) = n := by
  induction n with
  | zero => rfl
  | succ k ih =>
    rw [show spacesL (k + 1) = ' ' :: spacesL k from rfl]
    simp only [textWidth, List.map_cons, List.sum_cons, charWidth_space] at ih ⊢
    omega

theorem width_some {s : Str} {n : Nat} (h : width s = some n) :
    ∃ t, stripGo false s = some t ∧ textWidth t = n := by
  unfold width stripEscapes at h
  rcases hmap : stripGo false s with _ | t
  · rw [hmap] at h; exact absurd h (by simp)
  · rw [hmap] at h
    simp only [Option.map_some'] at h
    exact ⟨t, rfl, Option.some.inj h⟩

theorem width_append {s t : Str} {m n : Nat}
    (hs : width s = some m) (ht : width t = some n) :
    width (s ++ t) = some (m + n) := by
  obtain ⟨s', hs', hws⟩ := width_some hs
  obtain ⟨t', ht', hwt⟩ := width_some ht
  unfold width stripEscapes
  rw [stripGo_append t hs', ht']
  simp [Option.map_some', textWidth_append, hws, hwt]

theorem width_spaces (n : Nat) : width (spacesL n) = some n := by
  unfold width stripEscapes
  rw [stripGo_spaces]
  simp [textWidth_spaces]

/-! ## Lemmas about `format` -/

theorem format_of_width_none {s : Str} (w : Nat) (a : Alignment)
    (h : width s = none) : format s w a = none := by
  unfold format
  rw [h]

theorem format_left_eq {s : Str} {w n : Nat}
    (hn : width s = some n) (hle : n ≤ max w 8) :
    format s w .Left = some (s ++ spacesL (max w 8 - n)) := by
  unfold format
  rw [hn]
  dsimp only
  rw [if_pos hle]

theorem format_right_eq {s : Str} {w n : Nat}
    (hn : width s = some n) (hle : n ≤ max w 8) :
    format s w .Right = some (spacesL (max w 8 - n) ++ s) := by
  unfold format
  rw [hn]
  dsimp only
  rw [if_pos hle]

theorem format_center_eq {s : Str} {w n : Nat}
    (hn : width s = some n) (hle : n ≤ max w 8) :
    format s w .Center =
      some (spacesL ((max w 8 - n) / 2) ++ s ++
        spacesL ((max w 8 - n) - (max w 8 - n) / 2)) := by
  unfold format
  rw [hn]
  dsimp only
  rw [if_pos hle]

theorem format_underflow {s : Str} {w n : Nat} (a : Alignment)
    (hn : width s = some n) (hlt : max w 8 < n) :
    format s w a = none := by
  unfold format
  rw [hn]
  dsimp only
  rw [if_neg (by omega)]

/-- The visual width of a formatted field is exactly the floored target
width, whatever the alignment. -/
theorem format_width {s : Str} {w n : Nat} {a : Alignment} {out : Str}
    (hn : width s = some n) (hle : n ≤ max w 8)
    (hout : format s w a = some out) :
    width out = some (max w 8) := by
  cases a with
  | Left =>
    rw [format_left_eq hn hle] at hout
    cases hout
    rw [width_append hn (width_spaces _)]
    congr 1
    omega
  | Right =>
    rw [format_right_eq hn hle] at hout
    cases hout
    rw [width_append (width_spaces _) hn]
    congr 1
    omega
  | Center =>
    rw [format_center_eq hn hle] at hout
    cases hout
    rw [width_append (width_append (width_spaces _) hn) (width_spaces _)]
    congr 1
    omega

/-- A formatted field adds exactly `max w 8 - width s` pad characters,
whatever the alignment. -/
theorem format_length {s : Str} {w n : Nat} {a : Alignment} {out : Str}
    (hn : width s = some n) (hle : n ≤ max w 8)
    (hout : format s w a = some out) :
    out.length = s.length + (max w 8 - n) := by
  cases a with
  | Left =>
    rw [format_left_eq hn hle] at hout
    cases hout
    simp [spacesL]
  | Right =>
    rw [format_right_eq hn hle] at hout
    cases hout
    simp [spacesL]
    omega
  | Center =>
    rw [format_center_eq hn hle] at hout
    cases hout
    simp [spacesL]
    omega

/-! ## Lemmas about `update_widths` -/

theorem update_widths_nil_cells (ws : List Nat) : update_widths ws [] = some ws := by
  cases ws <;> rfl

theorem update_widths_nil_widths (cs : List Str) : update_widths [] cs = some [] := by
  cases cs <;> rfl

theorem update_widths_cons (w : Nat) (ws : List Nat) (c : Str) (cs : List Str) :
    update_widths (w :: ws) (c :: cs) =
      match width c with
      | none => none
      | some cw =>
        match update_widths ws cs with
        | none => none
        | some rest => some (max w cw :: rest) := by
  rfl

/-- What `update_widths` does to each slot: slots with no paired cell are
unchanged; slots with a paired cell become the max of the old width and the
cell's visual width (which must have been measured successfully). -/
theorem update_widths_spec {ws ws' : List Nat} {cs : List Str}
    (h : update_widths ws cs = some ws') :
    ws'.length = ws.length ∧
    ∀ (i : Nat) (a : Nat), ws[i]? = some a →
      (cs[i]? = none → ws'[i]? = some a) ∧
      (∀ c, cs[i]? = some c →
        ∃ cw, width c = some cw ∧ ws'[i]? = some (max a cw)) := by
  induction ws generalizing cs ws' with
  | nil =>
    rw [update_widths_nil_widths] at h
    cases h
    refine ⟨rfl, ?_⟩
    intro i a ha
    simp at ha
  | cons w ws ih =>
    cases cs with
    | nil =>
      rw [update_widths_nil_cells] at h
      cases h
      refine ⟨rfl, ?_⟩
      intro i a ha
      refine ⟨fun _ => ha, ?_⟩
      intro c hc
      simp at hc
    | cons c cs =>
      rw [update_widths_cons] at h
      rcases hw : width c with _ | cw
      · rw [hw] at h
        exact absurd h (by simp)
      · rw [hw] at h
        dsimp only at h
        rcases hu : update_widths ws cs with _ | rest
        · rw [hu] at h
          exact absurd h (by simp)
        · rw [hu] at h
          dsimp only at h
          cases h
          obtain ⟨hlen, hspec⟩ := ih hu
          refine ⟨by simp [hlen], ?_⟩
          intro i a ha
          cases i with
          | zero =>
            rw [List.getElem?_cons_zero] at ha
            obtain rfl : w = a := Option.some.inj ha
            constructor
            · intro hnone
              rw [List.getElem?_cons_zero] at hnone
              exact absurd hnone (by simp)
            · intro c' hc'
              rw [List.getElem?_cons_zero] at hc'
              obtain rfl : c = c' := Option.some.inj hc'
              exact ⟨cw, hw, by rw [List.getElem?_cons_zero]⟩
          | succ j =>
            rw [List.getElem?_cons_succ] at ha
            obtain ⟨h1, h2⟩ := hspec j a ha
            constructor
            · intro hnone
              rw [List.getElem?_cons_succ] at hnone
              rw [List.getElem?_cons_succ]
              exact h1 hnone
            · intro c' hc'
              rw [List.getElem?_cons_succ] at hc'
              rw [List.getElem?_cons_succ]
              exact h2 c' hc'

/-- Each width slot is non-decreasing across `update_widths`. -/
theorem update_widths_mono {ws ws' : List Nat} {cs : List Str}
    (h : update_widths ws cs = some ws') :
    ∀ (i : Nat) (a b : Nat), ws[i]? = some a → ws'[i]? = some b → a ≤ b := by
  intro i a b ha hb
  obtain ⟨-, hspec⟩ := update_widths_spec h
  obtain ⟨h1, h2⟩ := hspec i a ha
  rcases hc : cs[i]? with _ | c
  · rw [h1 hc] at hb
    cases hb
    exact le_refl _
  · obtain ⟨cw, -, hw'⟩ := h2 c hc
    rw [hw'] at hb
    cases hb
    exact le_max_left _ _

/-- After `update_widths`, each paired cell's visual width is bounded by the
resulting slot. -/
theorem update_widths_cell_le {ws ws' : List Nat} {cs : List Str}
    (h : update_widths ws cs = some ws') :
    pairedLE cs ws' := by
  unfold pairedLE
  intro i c w' hc hw'
  obtain ⟨hlen, hspec⟩ := update_widths_spec h
  rcases ha : ws[i]? with _ | a
  · rw [List.getElem?_eq_none_iff] at ha
    have : ws'[i]? = none := List.getElem?_eq_none (by omega)
    rw [this] at hw'
    exact absurd hw' (by simp)
  · obtain ⟨-, h2⟩ := hspec i a ha
    obtain ⟨cw, hcw, hmax⟩ := h2 c hc
    rw [hmax] at hw'
    cases hw'
    exact ⟨cw, hcw, le_max_right _ _⟩

/-- `update_widths` only looks at the cells paired with a width slot:
extra cells beyond the slots are ignored. -/
theorem update_widths_take (ws : List Nat) (cs : List Str) :
    update_widths ws cs = update_widths ws (cs.take ws.length) := by
  induction ws generalizing cs with
  | nil =>
    rw [update_widths_nil_widths, List.length_nil, List.take_zero,
      update_widths_nil_cells]
  | cons w ws ih =>
    cases cs with
    | nil => rfl
    | cons c cs =>
      rw [show (c :: cs).take (w :: ws).length = c :: cs.take ws.length from rfl,
        update_widths_cons, update_widths_cons, ih]

/-! ## Lemmas about the renderer -/

theorem renderRowFields_nil_cells (ws : List Nat) :
    renderRowFields [] ws = some [] := by
  cases ws <;> rfl

theorem renderRowFields_nil_widths (cs : List Str) :
    renderRowFields cs [] = some [] := by
  cases cs <;> rfl

theorem renderRowFields_cons (c : Str) (cs : List Str) (w : Nat) (ws : List Nat) :
    renderRowFields (c :: cs) (w :: ws) =
      match format c w .Left with
      | none => none
      | some f =>
        match renderRowFields cs ws with
        | none => none
        | some rest => some (f ++ ' ' :: rest) := by
  rfl

theorem renderHeaderFields_nil_headers (ws : List Nat) :
    renderHeaderFields [] ws = some [] := by
  cases ws <;> rfl

theorem renderHeaderFields_nil_widths (hs : List Header) :
    renderHeaderFields hs [] = some [] := by
  cases hs <;> rfl

theorem renderHeaderFields_cons (h : Header) (hs : List Header) (w : Nat)
    (ws : List Nat) :
    renderHeaderFields (h :: hs) (w :: ws) =
      match format h.text w h.alignment with
      | none => none
      | some f =>
        match renderHeaderFields hs ws with
        | none => none
        | some rest => some (f ++ ' ' :: rest) := by
  rfl

theorem renderRows_nil (ws : List Nat) : renderRows ws [] = some [] := rfl

theorem renderRows_cons (ws : List Nat) (r : List Str) (rs : List (List Str)) :
    renderRows ws (r :: rs) =
      match renderRowFields r ws with
      | none => none
      | some line =>
        match renderRows ws rs with
        | none => none
        | some rest => some (line ++ '\n' :: rest) := rfl

theorem pairedLE_cons {c : Str} {cs : List Str} {w : Nat} {ws : List Nat}
    (h : pairedLE (c :: cs) (w :: ws)) : pairedLE cs ws := by
  intro i c' w' hc hw
  exact h (i + 1) c' w' (by rw [List.getElem?_cons_succ]; exact hc)
    (by rw [List.getElem?_cons_succ]; exact hw)

theorem pairedLE_head {c : Str} {cs : List Str} {w : Nat} {ws : List Nat}
    (h : pairedLE (c :: cs) (w :: ws)) : ∃ n, width c = some n ∧ n ≤ w :=
  h 0 c w (by rw [List.getElem?_cons_zero]) (by rw [List.getElem?_cons_zero])

theorem pairedLE_of_mono {cs : List Str} {ws ws' : List Nat}
    (h : pairedLE cs ws) (hlen : ws'.length = ws.length)
    (hmono : ∀ (i : Nat) (a b : Nat), ws[i]? = some a → ws'[i]? = some b → a ≤ b) :
    pairedLE cs ws' := by
  intro i c w' hc hw'
  rcases hws : ws[i]? with _ | a
  · rw [List.getElem?_eq_none_iff] at hws
    have hnone : ws'[i]? = none := List.getElem?_eq_none (by omega)
    rw [hnone] at hw'
    exact absurd hw' (by simp)
  · obtain ⟨n, hn, hle⟩ := h i c a hc hws
    exact ⟨n, hn, le_trans hle (hmono i a w' hws hw')⟩

theorem format_some {s : Str} {w n : Nat} (a : Alignment)
    (hn : width s = some n) (hle : n ≤ max w 8) :
    ∃ out, format s w a = some out := by
  cases a with
  | Left => exact ⟨_, format_left_eq hn hle⟩
  | Right => exact ⟨_, format_right_eq hn hle⟩
  | Center => exact ⟨_, format_center_eq hn hle⟩

theorem renderRowFields_some {cs : List Str} {ws : List Nat}
    (h : pairedLE cs ws) : ∃ out, renderRowFields cs ws = some out := by
  induction cs generalizing ws with
  | nil => exact ⟨[], renderRowFields_nil_cells ws⟩
  | cons c cs ih =>
    cases ws with
    | nil => exact ⟨[], renderRowFields_nil_widths _⟩
    | cons w ws =>
      obtain ⟨n, hn, hle⟩ := pairedLE_head h
      have hfmt := format_left_eq hn (le_trans hle (le_max_left w 8))
      obtain ⟨rest, hrest⟩ := ih (pairedLE_cons h)
      rw [renderRowFields_cons, hfmt]
      dsimp only
      rw [hrest]
      exact ⟨_, rfl⟩

theorem renderRows_some {ws : List Nat} {rows : List (List Str)}
    (h : ∀ r ∈ rows, pairedLE r ws) : ∃ out, renderRows ws rows = some out := by
  induction rows with
  | nil => exact ⟨[], renderRows_nil ws⟩
  | cons r rs ih =>
    obtain ⟨line, hline⟩ := renderRowFields_some (h r (by simp))
    obtain ⟨rest, hrest⟩ := ih (fun r' hr' => h r' (by simp [hr']))
    rw [renderRows_cons, hline]
    dsimp only
    rw [hrest]
    exact ⟨_, rfl⟩

theorem renderHeaderFields_some {hs : List Header} {ws : List Nat}
    (h : ∀ (i : Nat) hd w, hs[i]? = some hd → ws[i]? = some w →
      ∃ n, width hd.text = some n ∧ n ≤ w) :
    ∃ out, renderHeaderFields hs ws = some out := by
  induction hs generalizing ws with
  | nil => exact ⟨[], renderHeaderFields_nil_headers ws⟩
  | cons hd hs ih =>
    cases ws with
    | nil => exact ⟨[], renderHeaderFields_nil_widths _⟩
    | cons w ws =>
      obtain ⟨n, hn, hle⟩ := h 0 hd w (by rw [List.getElem?_cons_zero])
        (by rw [List.getElem?_cons_zero])
      obtain ⟨f, hf⟩ := format_some hd.alignment hn (le_trans hle (le_max_left w 8))
      obtain ⟨rest, hrest⟩ := ih (fun i hd' w' hh hw =>
        h (i + 1) hd' w' (by rw [List.getElem?_cons_succ]; exact hh)
          (by rw [List.getElem?_cons_succ]; exact hw))
      rw [renderHeaderFields_cons, hf]
      dsimp only
      rw [hrest]
      exact ⟨_, rfl⟩

theorem getElem?_concat {α : Type} (l : List α) (x : α) (i : Nat) :
    (l ++ [x])[i]? =
      if i < l.length then l[i]? else if i = l.length then some x else none := by
  rw [List.getElem?_append]
  by_cases hlt : i < l.length
  · rw [if_pos hlt, if_pos hlt]
  · rw [if_neg hlt, if_neg hlt]
    by_cases heq : i = l.length
    · rw [if_pos heq, heq, Nat.sub_self, List.getElem?_cons_zero]
    · rw [if_neg heq]
      exact List.getElem?_eq_none (by simp only [List.length_singleton]; omega)

/-! ## The reachability invariant -/

/-- Every table reachable through the public interface has
`skip_header = false`, one width slot per header, each slot at least its
header's visual width, every stored row's paired cells within their slots,
and no rows while still in header phase. -/
theorem reachable_inv {ph : Phase} {t : Table} (h : Reachable ph t) :
    t.skip_header = false ∧
    t.column_widths.length = t.headers.length ∧
    (∀ (i : Nat) (hd : Header) (w : Nat), t.headers[i]? = some hd →
      t.column_widths[i]? = some w → ∃ n, width hd.text = some n ∧ n ≤ w) ∧
    (∀ r ∈ t.rows, pairedLE r t.column_widths) ∧
    (ph = .headerPhase → t.rows = []) := by
  induction h with
  | new =>
    refine ⟨rfl, rfl, ?_, ?_, fun _ => rfl⟩
    · intro i hd w hh _
      simp [Table.new] at hh
    · intro r hr
      simp [Table.new] at hr
  | @header tb hd tb' hr hop ih =>
    obtain ⟨hskip, hlen, hhw, hrows, hhp⟩ := ih
    have hrows0 : tb.rows = [] := hhp rfl
    unfold Table.headerOp at hop
    rcases hw : width hd.text with _ | n
    · rw [hw] at hop
      exact absurd hop (by simp)
    · rw [hw] at hop
      dsimp only at hop
      cases hop
      refine ⟨hskip, by simp [hlen], ?_, ?_, fun _ => by simp [hrows0]⟩
      · intro i hd' w hh hwv
        dsimp only at hh hwv
        rw [getElem?_concat] at hh hwv
        by_cases hlt : i < tb.headers.length
        · rw [if_pos hlt] at hh
          rw [if_pos (by omega)] at hwv
          exact hhw i hd' w hh hwv
        · by_cases heq : i = tb.headers.length
          · rw [if_neg hlt, if_pos heq] at hh
            rw [if_neg (by omega), if_pos (by omega)] at hwv
            cases hh
            cases hwv
            exact ⟨n, hw, le_refl n⟩
          · rw [if_neg hlt, if_neg heq] at hh
            exact absurd hh (by simp)
      · intro r hrr
        simp [hrows0] at hrr
  | @firstRow tb r tb' hr hop ih =>
    obtain ⟨hskip, hlen, hhw, hrows, hhp⟩ := ih
    unfold Table.rowFromHeader at hop
    rcases hu : update_widths tb.column_widths r.cells with _ | ws'
    · rw [hu] at hop
      exact absurd hop (by simp)
    · rw [hu] at hop
      dsimp only at hop
      cases hop
      obtain ⟨hulen, -⟩ := update_widths_spec hu
      have hmono := update_widths_mono hu
      refine ⟨hskip, by dsimp only; rw [hulen]; exact hlen, ?_, ?_,
        fun hph => nomatch hph⟩
      · intro i hd w hh hwv
        dsimp only at hh hwv
        rcases hws : tb.column_widths[i]? with _ | a
        · rw [List.getElem?_eq_none_iff] at hws
          have hno : ws'[i]? = none := List.getElem?_eq_none (by omega)
          rw [hno] at hwv
          exact absurd hwv (by simp)
        · obtain ⟨n, hn, hle⟩ := hhw i hd a hh hws
          exact ⟨n, hn, le_trans hle (hmono i a w hws hwv)⟩
      · intro rr hrr
        dsimp only at hrr ⊢
        rw [List.mem_singleton] at hrr
        subst hrr
        exact update_widths_cell_le hu
  | @endHeader tb hr ih =>
    obtain ⟨hskip, hlen, hhw, hrows, hhp⟩ := ih
    refine ⟨hskip, hlen, hhw, ?_, fun _ => rfl⟩
    intro r hrr
    simp [Table.end_header] at hrr
  | @row tb r tb' hr hop ih =>
    obtain ⟨hskip, hlen, hhw, hrows, hhp⟩ := ih
    unfold Table.rowOp at hop
    rcases hu : update_widths tb.column_widths r.cells with _ | ws'
    · rw [hu] at hop
      exact absurd hop (by simp)
    · rw [hu] at hop
      dsimp only at hop
      cases hop
      obtain ⟨hulen, -⟩ := update_widths_spec hu
      have hmono := update_widths_mono hu
      refine ⟨hskip, by dsimp only; rw [hulen]; exact hlen, ?_, ?_,
        fun hph => nomatch hph⟩
      · intro i hd w hh hwv
        dsimp only at hh hwv
        rcases hws : tb.column_widths[i]? with _ | a
        · rw [List.getElem?_eq_none_iff] at hws
          have hno : ws'[i]? = none := List.getElem?_eq_none (by omega)
          rw [hno] at hwv
          exact absurd hwv (by simp)
        · obtain ⟨n, hn, hle⟩ := hhw i hd a hh hws
          exact ⟨n, hn, le_trans hle (hmono i a w hws hwv)⟩
      · intro rr hrr
        dsimp only at hrr ⊢
        rw [List.mem_append] at hrr
        rcases hrr with hrr | hrr
        · exact pairedLE_of_mono (hrows rr hrr) hulen hmono
        · rw [List.mem_singleton] at hrr
          subst hrr
          exact update_widths_cell_le hu

/-! ## Characterising a built table's column widths -/

theorem widthsOf_nil : widthsOf [] = some [] := rfl

theorem widthsOf_cons (h : Header) (hs : List Header) :
    widthsOf (h :: hs) =
      match width h.text with
      | none => none
      | some w =>
        match widthsOf hs with
        | none => none
        | some ws => some (w :: ws) := rfl

theorem widthsOf_spec {hs : List Header} {ws : List Nat}
    (h : widthsOf hs = some ws) :
    ws.length = hs.length ∧
    ∀ (i : Nat) (hd : Header), hs[i]? = some hd →
      ∃ w, width hd.text = some w ∧ ws[i]? = some w := by
  induction hs generalizing ws with
  | nil =>
    cases h
    refine ⟨rfl, ?_⟩
    intro i hd hh
    simp at hh
  | cons hd hs ih =>
    rw [widthsOf_cons] at h
    rcases hw : width hd.text with _ | w
    · rw [hw] at h
      exact absurd h (by simp)
    · rw [hw] at h
      dsimp only at h
      rcases hws : widthsOf hs with _ | ws₁
      · rw [hws] at h
        exact absurd h (by simp)
      · rw [hws] at h
        dsimp only at h
        cases h
        obtain ⟨hlen, hspec⟩ := ih hws
        refine ⟨by simp [hlen], ?_⟩
        intro i hd' hh
        cases i with
        | zero =>
          rw [List.getElem?_cons_zero] at hh
          cases hh
          exact ⟨w, hw, by rw [List.getElem?_cons_zero]⟩
        | succ j =>
          rw [List.getElem?_cons_succ] at hh
          obtain ⟨w', hw', hws'⟩ := hspec j hd' hh
          exact ⟨w', hw', by rw [List.getElem?_cons_succ]; exact hws'⟩

theorem addHeaders_nil (t : Table) : addHeaders t [] = some t := rfl

theorem addHeaders_cons (t : Table) (hd : Header) (hs : List Header) :
    addHeaders t (hd :: hs) =
      match t.headerOp hd with
      | none => none
      | some t₁ => addHeaders t₁ hs := rfl

theorem addHeaders_spec {t t' : Table} {hs : List Header}
    (h : addHeaders t hs = some t') :
    ∃ ws, widthsOf hs = some ws ∧
      t'.headers = t.headers ++ hs ∧
      t'.column_widths = t.column_widths ++ ws ∧
      t'.rows = t.rows ∧ t'.skip_header = t.skip_header := by
  induction hs generalizing t with
  | nil =>
    cases h
    exact ⟨[], rfl, by simp, by simp, rfl, rfl⟩
  | cons hd hs ih =>
    rw [addHeaders_cons] at h
    unfold Table.headerOp at h
    rcases hw : width hd.text with _ | w
    · rw [hw] at h
      dsimp only at h
      exact absurd h (by simp)
    · rw [hw] at h
      dsimp only at h
      obtain ⟨ws, hws, hh, hcw, hr, hsk⟩ := ih h
      refine ⟨w :: ws, ?_, ?_, ?_, ?_, ?_⟩
      · rw [widthsOf_cons, hw]
        dsimp only
        rw [hws]
      · rw [hh]
        simp
      · rw [hcw]
        simp
      · rw [hr]
      · rw [hsk]

theorem addRows_nil (t : Table) : addRows t [] = some t := rfl

theorem addRows_cons (t : Table) (r : Row) (rs : List Row) :
    addRows t (r :: rs) =
      match t.rowOp r with
      | none => none
      | some t₁ => addRows t₁ rs := rfl

theorem colSeen_nil (i : Nat) : colSeen [] i = [] := rfl

theorem colSeen_cons (r : Row) (rs : List Row) (i : Nat) :
    colSeen (r :: rs) i =
      match r.cells[i]? with
      | some c => c :: colSeen rs i
      | none => colSeen rs i := by
  rcases h : r.cells[i]? with _ | c <;> simp [colSeen, List.filterMap_cons, h]

theorem maxWidthFrom_nil (seed : Nat) : maxWidthFrom seed [] = some seed := rfl

theorem maxWidthFrom_cons (seed : Nat) (c : Str) (cs : List Str) :
    maxWidthFrom seed (c :: cs) =
      match width c with
      | none => none
      | some w => maxWidthFrom (max seed w) cs := rfl

/-- Adding rows preserves headers and the skip flag, preserves the number
of width slots, and takes each slot to the running maximum of its old value
and the widths of the cells seen in that column. -/
theorem addRows_widths {t t' : Table} {rs : List Row}
    (h : addRows t rs = some t') :
    t'.headers = t.headers ∧ t'.skip_header = t.skip_header ∧
    t'.column_widths.length = t.column_widths.length ∧
    ∀ (i : Nat) (a : Nat), t.column_widths[i]? = some a →
      maxWidthFrom a (colSeen rs i) = t'.column_widths[i]? := by
  induction rs generalizing t with
  | nil =>
    cases h
    refine ⟨rfl, rfl, rfl, ?_⟩
    intro i a ha
    rw [colSeen_nil, maxWidthFrom_nil, ha]
  | cons r rs ih =>
    rw [addRows_cons] at h
    unfold Table.rowOp at h
    rcases hu : update_widths t.column_widths r.cells with _ | ws₁
    · rw [hu] at h
      dsimp only at h
      exact absurd h (by simp)
    · rw [hu] at h
      dsimp only at h
      obtain ⟨hh, hsk, hlen, hind⟩ := ih h
      obtain ⟨hulen, huspec⟩ := update_widths_spec hu
      refine ⟨by rw [hh], by rw [hsk], by rw [hlen]; exact hulen, ?_⟩
      intro i a ha
      obtain ⟨h1, h2⟩ := huspec i a ha
      rw [colSeen_cons]
      rcases hc : r.cells[i]? with _ | c
      · dsimp only
        exact hind i a (h1 hc)
      · obtain ⟨cw, hcw, hmax⟩ := h2 c hc
        dsimp only
        rw [maxWidthFrom_cons, hcw]
        dsimp only
        exact hind i (max a cw) hmax

theorem renderRowFields_take (cs : List Str) (ws : List Nat) :
    renderRowFields cs ws = renderRowFields (cs.take ws.length) ws := by
  induction cs generalizing ws with
  | nil => rw [List.take_nil]
  | cons c cs ih =>
    cases ws with
    | nil => rfl
    | cons w ws =>
      rw [show (c :: cs).take (w :: ws).length = c :: cs.take ws.length from rfl,
        renderRowFields_cons, renderRowFields_cons, ih ws]

/-! ## The claims -/

/-- Claim C1, the claim as frozen is false on the code: on an input whose
escape-sequence stripping fails (a lone ESC is a malformed escape sequence),
`width` panics via `expect` — the outcome is `panicked`, an abort, not a
recoverable error — and the public header-addition operation aborts rather
than returning an error to its caller. -/
theorem c1_counterexample :
    stripEscapes [escChar] = none ∧
    widthRun [escChar] = WidthOutcome.panicked ∧
    Table.new.headerOp (Header.ofText [escChar]) = none := by
  refine ⟨?_, ?_, ?_⟩ <;> decide

/-- Claim C1 (amended): for every input text on which escape-sequence
stripping fails, width measurement — and hence every public operation that
measures width (header addition, row addition with the malformed text in a
tracked column) — aborts the process by panicking (`expect`); it never
surfaces a recoverable error to its caller. -/
theorem c1_width_panics_on_malformed (s : Str) (t : Table) (al : Alignment)
    (hs : List Header) (w : Nat) (ws : List Nat) (r : List Str)
    (rows0 : List (List Str)) (sk : Bool)
    (h : stripEscapes s = none) :
    widthRun s = WidthOutcome.panicked ∧
    (∀ e, widthRun s ≠ WidthOutcome.recoverableError e) ∧
    Table.headerOp t ⟨s, al⟩ = none ∧
    Table.rowFromHeader ⟨hs, w :: ws, rows0, sk⟩ ⟨s :: r⟩ = none ∧
    Table.rowOp ⟨hs, w :: ws, rows0, sk⟩ ⟨s :: r⟩ = none := by
  have hw : width s = none := by
    unfold width
    rw [h]
    rfl
  have hupd : update_widths (w :: ws) (s :: r) = none := by
    rw [update_widths_cons, hw]
  refine ⟨?_, ?_, ?_, ?_, ?_⟩
  · unfold widthRun
    rw [h]
  · intro e
    unfold widthRun
    rw [h]
    simp
  · unfold Table.headerOp
    rw [show width (⟨s, al⟩ : Header).text = none from hw]
  · unfold Table.rowFromHeader
    rw [show update_widths (⟨hs, w :: ws, rows0, sk⟩ : Table).column_widths
      (⟨s :: r⟩ : Row).cells = none from hupd]
  · unfold Table.rowOp
    rw [show update_widths (⟨hs, w :: ws, rows0, sk⟩ : Table).column_widths
      (⟨s :: r⟩ : Row).cells = none from hupd]

/-- Witness for C1 (amended) at the concrete malformed input `[ESC]`. -/
theorem c1_width_panics_on_malformed_witness :
    stripEscapes [escChar] = none ∧
    (widthRun [escChar] = WidthOutcome.panicked ∧
      (∀ e, widthRun [escChar] ≠ WidthOutcome.recoverableError e) ∧
      Table.headerOp Table.new ⟨[escChar], .Left⟩ = none ∧
      Table.rowFromHeader ⟨[], 3 :: [], [], false⟩ ⟨[escChar] :: []⟩ = none ∧
      Table.rowOp ⟨[], 3 :: [], [], false⟩ ⟨[escChar] :: []⟩ = none) :=
  ⟨by decide,
   c1_width_panics_on_malformed [escChar] Table.new .Left [] 3 [] [] [] false
     (by decide)⟩

/-- Claim C2, the claim as frozen is false on the code: `format` does not
clamp the padding at 0.  On a 9-wide string with floored target width 8 the
`usize` subtraction underflows and the process panics (modelled `none`), so
the formatting step does fail when `width s` exceeds `max w 8`. -/
theorem c2_counterexample :
    width "123456789".data = some 9 ∧ max 0 8 < 9 ∧
    format "123456789".data 0 Alignment.Left = none := by
  refine ⟨?_, ?_, ?_⟩ <;> decide

/-- Claim C2 (amended): the padding amount used when formatting `s` to
width `max w 8` equals `max w 8 - width s` whenever that difference is
non-negative (the output has exactly that many pad characters, under every
alignment); when `width s` exceeds `max w 8` the unsigned subtraction
underflows and the formatting step panics — there is no clamping to 0. -/
theorem c2_padding (s : Str) (w : Nat) (a : Alignment) (n : Nat)
    (hn : width s = some n) :
    (n ≤ max w 8 →
      ∃ out, format s w a = some out ∧
        out.length = s.length + (max w 8 - n)) ∧
    (max w 8 < n → format s w a = none) := by
  constructor
  · intro hle
    obtain ⟨out, hout⟩ := format_some a hn hle
    exact ⟨out, hout, format_length hn hle hout⟩
  · intro hlt
    exact format_underflow a hn hlt

/-- Witness for C2 (amended) at a concrete input on both sides of the
underflow boundary. -/
theorem c2_padding_witness :
    (width "abc".data = some 3 ∧
      ((3 ≤ max 0 8 →
        ∃ out, format "abc".data 0 Alignment.Left = some out ∧
          out.length = "abc".data.length + (max 0 8 - 3)) ∧
       (max 0 8 < 3 → format "abc".data 0 Alignment.Left = none))) ∧
    (width "123456789".data = some 9 ∧
      ((9 ≤ max 0 8 →
        ∃ out, format "123456789".data 0 Alignment.Right = some out ∧
          out.length = "123456789".data.length + (max 0 8 - 9)) ∧
       (max 0 8 < 9 → format "123456789".data 0 Alignment.Right = none))) :=
  ⟨⟨by decide, c2_padding "abc".data 0 Alignment.Left 3 (by decide)⟩,
   ⟨by decide, c2_padding "123456789".data 0 Alignment.Right 9 (by decide)⟩⟩

/-- Claim C3: column widths are non-decreasing under every row addition;
each header addition seeds its column's width slot with the header text's
visual width; and a table built through the public interface has one width
slot per header, equal to the running maximum of the header's width and the
visual widths of the cells seen in that column. -/
theorem c3_width_monotone_max :
    (∀ (t : Table) (r : Row) (t' : Table), Table.rowOp t r = some t' →
      t'.column_widths.length = t.column_widths.length ∧
      ∀ (i : Nat) (a b : Nat), t.column_widths[i]? = some a →
        t'.column_widths[i]? = some b → a ≤ b) ∧
    (∀ (t : Table) (h : Header) (t' : Table), Table.headerOp t h = some t' →
      ∃ w, width h.text = some w ∧
        t'.column_widths = t.column_widths ++ [w]) ∧
    (∀ (hs : List Header) (rs : List Row) (t : Table),
      buildTable hs rs = some t →
      t.column_widths.length = hs.length ∧
      ∀ (i : Nat) (hd : Header), hs[i]? = some hd →
        ∃ hw cw, width hd.text = some hw ∧ t.column_widths[i]? = some cw ∧
          maxWidthFrom hw (colSeen rs i) = some cw) := by
  refine ⟨?_, ?_, ?_⟩
  · intro t r t' h
    unfold Table.rowOp at h
    rcases hu : update_widths t.column_widths r.cells with _ | ws₁
    · rw [hu] at h
      exact absurd h (by simp)
    · rw [hu] at h
      dsimp only at h
      cases h
      exact ⟨(update_widths_spec hu).1, update_widths_mono hu⟩
  · intro t h t' hop
    unfold Table.headerOp at hop
    rcases hw : width h.text with _ | w
    · rw [hw] at hop
      exact absurd hop (by simp)
    · rw [hw] at hop
      dsimp only at hop
      cases hop
      exact ⟨w, rfl, rfl⟩
  · intro hs rs t h
    unfold buildTable at h
    rcases hb : addHeaders Table.new hs with _ | t₀
    · rw [hb] at h
      exact absurd h (by simp)
    · rw [hb] at h
      dsimp only at h
      obtain ⟨ws, hws, hh, hcw, -, -⟩ := addHeaders_spec hb
      obtain ⟨hwlen, hwspec⟩ := widthsOf_spec hws
      obtain ⟨-, -, hlen, hind⟩ := addRows_widths h
      have hcw0 : t₀.end_header.column_widths = ws := by
        rw [show t₀.end_header.column_widths = t₀.column_widths from rfl, hcw]
        rfl
      constructor
      · rw [hlen, hcw0, hwlen]
      · intro i hd hh'
        obtain ⟨w, hw, hwsi⟩ := hwspec i hd hh'
        have hi : i < hs.length := by
          by_contra hcon
          rw [List.getElem?_eq_none (by omega)] at hh'
          exact absurd hh' (by simp)
        rcases ht : t.column_widths[i]? with _ | cw
        · rw [List.getElem?_eq_none_iff] at ht
          rw [hlen, hcw0, hwlen] at ht
          omega
        · refine ⟨w, cw, hw, rfl, ?_⟩
          have := hind i w (by rw [hcw0]; exact hwsi)
          rw [ht] at this
          exact this

/-- Witness for C3 at a concrete table: a row addition keeps slot 0 at its
old maximum, and the built table's slot equals the running maximum. -/
theorem c3_witness :
    ((⟨[], [4], [], false⟩ : Table).rowOp (Row.new.cell "abc".data) =
      some ⟨[], [4], [["abc".data]], false⟩) ∧
    (4 : Nat) ≤ 4 ∧
    buildTable [Header.ofText "Name".data] [Row.new.cell "Alice".data] =
      some ⟨[Header.ofText "Name".data], [5], [["Alice".data]], false⟩ ∧
    List.length (Table.column_widths
      ⟨[Header.ofText "Name".data], [5], [["Alice".data]], false⟩) = 1 := by
  have h1 := (c3_width_monotone_max.1 ⟨[], [4], [], false⟩
    (Row.new.cell "abc".data) ⟨[], [4], [["abc".data]], false⟩ (by decide)).2
    0 4 4 (by decide) (by decide)
  have h3 := (c3_width_monotone_max.2.2 [Header.ofText "Name".data]
    [Row.new.cell "Alice".data]
    ⟨[Header.ofText "Name".data], [5], [["Alice".data]], false⟩ (by decide)).1
  exact ⟨by decide, h1, by decide, h3⟩

/-- Claim C4: data-row cells are rendered left-aligned — the output is the
cell text followed by all the padding — and the row lines do not depend on
the alignments declared on the headers. -/
theorem c4_rows_left_aligned :
    (∀ (t : Table) (a : Alignment),
      renderRows (setAlignments t a).column_widths (setAlignments t a).rows =
        renderRows t.column_widths t.rows) ∧
    (∀ (c : Str) (w n : Nat), width c = some n → n ≤ max w 8 →
      renderRowFields [c] [w] =
        some ((c ++ spacesL (max w 8 - n)) ++ [' '])) := by
  constructor
  · intro t a
    rfl
  · intro c w n hn hle
    rw [renderRowFields_cons, format_left_eq hn hle]
    dsimp only
    rw [renderRowFields_nil_cells]

/-- Witness for C4 at a concrete cell whose header alignment would have been
irrelevant. -/
theorem c4_witness :
    width "ab".data = some 2 ∧
    renderRowFields ["ab".data] [0] =
      some (("ab".data ++ spacesL (max 0 8 - 2)) ++ [' ']) :=
  ⟨by decide, c4_rows_left_aligned.2 "ab".data 0 2 (by decide) (by decide)⟩

/-- Claim C5: every emitted field is padded to visual width exactly
`max w 8`, which is at least 8, even when the content is narrower. -/
theorem c5_floor_eight (s : Str) (w n : Nat) (a : Alignment)
    (hn : width s = some n) (hle : n ≤ max w 8) :
    (∃ out, format s w a = some out) ∧
    ∀ out, format s w a = some out →
      width out = some (max w 8) ∧ 8 ≤ max w 8 := by
  refine ⟨format_some a hn hle, ?_⟩
  intro out hout
  exact ⟨format_width hn hle hout, le_max_right w 8⟩

/-- Witness for C5 at a concrete narrow field. -/
theorem c5_witness :
    width "hi".data = some 2 ∧
    (width (spacesL 6 ++ "hi".data) = some (max 3 8) ∧ 8 ≤ max 3 8) :=
  ⟨by decide,
   (c5_floor_eight "hi".data 3 2 Alignment.Right (by decide) (by decide)).2
     (spacesL 6 ++ "hi".data) (by decide)⟩

/-- Claim C6: calling `row(r)` on a header-phase table is exactly
`end_header()` followed by `row(r)`, and the resulting table's row list
contains exactly the single row `r`, with headers and the skip flag carried
over and the column widths updated by `r`. -/
theorem c6_implicit_transition :
    (∀ (t : Table) (r : Row),
      Table.rowFromHeader t r = Table.rowOp t.end_header r) ∧
    (∀ (t : Table) (r : Row) (t' : Table),
      Table.rowFromHeader t r = some t' →
      t'.rows = [r.cells] ∧ t'.headers = t.headers ∧
      t'.skip_header = t.skip_header ∧
      update_widths t.column_widths r.cells = some t'.column_widths) := by
  constructor
  · intro t r
    unfold Table.rowFromHeader Table.rowOp Table.end_header
    dsimp only
    rcases hu : update_widths t.column_widths r.cells with _ | ws <;> rfl
  · intro t r t' h
    unfold Table.rowFromHeader at h
    rcases hu : update_widths t.column_widths r.cells with _ | ws
    · rw [hu] at h
      exact absurd h (by simp)
    · rw [hu] at h
      dsimp only at h
      cases h
      exact ⟨rfl, rfl, rfl, rfl⟩

/-- Witness for C6 at a concrete header-phase table. -/
theorem c6_witness :
    ((⟨[Header.ofText "A".data], [1], [], false⟩ : Table).rowFromHeader
        (Row.new.cell "zz".data) =
      some ⟨[Header.ofText "A".data], [2], [["zz".data]], false⟩) ∧
    (Table.rows ⟨[Header.ofText "A".data], [2], [["zz".data]], false⟩ =
        [(Row.new.cell "zz".data).cells] ∧
      Table.headers ⟨[Header.ofText "A".data], [2], [["zz".data]], false⟩ =
        Table.headers ⟨[Header.ofText "A".data], [1], [], false⟩ ∧
      Table.skip_header ⟨[Header.ofText "A".data], [2], [["zz".data]], false⟩ =
        Table.skip_header ⟨[Header.ofText "A".data], [1], [], false⟩ ∧
      update_widths (Table.column_widths ⟨[Header.ofText "A".data], [1], [], false⟩)
          (Row.new.cell "zz".data).cells =
        some (Table.column_widths
          ⟨[Header.ofText "A".data], [2], [["zz".data]], false⟩)) :=
  ⟨by decide,
   c6_implicit_transition.2 ⟨[Header.ofText "A".data], [1], [], false⟩
     (Row.new.cell "zz".data)
     ⟨[Header.ofText "A".data], [2], [["zz".data]], false⟩ (by decide)⟩

/-- Claim C7: the end-to-end example — headers `Name`, `Age` (default Left
alignment), rows `Alice 20` and `Bob 30` — renders as exactly the three
lines of the source's test, each field padded to width 8 with one trailing
space, including the last field of each line. -/
theorem c7_end_to_end :
    ((((Table.new.headerOp (Header.ofText "Name".data)).bind
        (fun t => t.headerOp (Header.ofText "Age".data))).bind
        (fun t => t.rowFromHeader ((Row.new.cell "Alice".data).cell "20".data))).bind
        (fun t => t.rowOp ((Row.new.cell "Bob".data).cell "30".data))).bind
        render =
      some ("Name     Age      \n" ++ "Alice    20       \n" ++
        "Bob      30       \n").data := by
  decide

/-- Claim C8: cells are paired with width slots positionally, stopping at
the shorter sequence: extra cells contribute no width and are not rendered,
slots with no paired cell are unchanged, and no arity mismatch is ever an
error (the slot list's length is always preserved, and the extreme
mismatches succeed outright). -/
theorem c8_arity_mismatch :
    (∀ (ws : List Nat) (cs : List Str),
      update_widths ws cs = update_widths ws (cs.take ws.length)) ∧
    (∀ (ws ws' : List Nat) (cs : List Str), update_widths ws cs = some ws' →
      ws'.length = ws.length ∧
      ∀ (i : Nat) (a : Nat), cs[i]? = none → ws[i]? = some a →
        ws'[i]? = some a) ∧
    (∀ (cs : List Str) (ws : List Nat),
      renderRowFields cs ws = renderRowFields (cs.take ws.length) ws) ∧
    (∀ ws : List Nat, update_widths ws [] = some ws) ∧
    (∀ cs : List Str, update_widths [] cs = some []) := by
  refine ⟨update_widths_take, ?_, renderRowFields_take,
    update_widths_nil_cells, update_widths_nil_widths⟩
  intro ws ws' cs h
  refine ⟨(update_widths_spec h).1, ?_⟩
  intro i a hc ha
  exact ((update_widths_spec h).2 i a ha).1 hc

/-- Witness for C8: a two-cell row against one slot and a one-cell row
against two slots. -/
theorem c8_witness :
    (update_widths [9] ["a".data, "b".data] =
      update_widths [9] (["a".data, "b".data].take ([9] : List Nat).length)) ∧
    ([9, 9] : List Nat)[1]? = some 9 :=
  ⟨c8_arity_mismatch.1 [9] ["a".data, "b".data],
   (c8_arity_mismatch.2.1 [9, 9] [9, 9] ["a".data] (by decide)).2 1 9
     (by decide) (by decide)⟩

/-- Claim C9: for a pad count `p = max w 8 - width s`, Left places all `p`
pad spaces after the text, Right places all `p` before it, and Center
places `p / 2` before and `p - p / 2` after — the smaller (floor) half
first when `p` is odd. -/
theorem c9_alignment_placement (s : Str) (w n : Nat)
    (hn : width s = some n) (hle : n ≤ max w 8) :
    format s w .Left = some (s ++ spacesL (max w 8 - n)) ∧
    format s w .Right = some (spacesL (max w 8 - n) ++ s) ∧
    format s w .Center =
      some (spacesL ((max w 8 - n) / 2) ++ s ++
        spacesL ((max w 8 - n) - (max w 8 - n) / 2)) ∧
    (max w 8 - n) / 2 ≤ (max w 8 - n) - (max w 8 - n) / 2 ∧
    (max w 8 - n) / 2 + ((max w 8 - n) - (max w 8 - n) / 2) = max w 8 - n :=
  ⟨format_left_eq hn hle, format_right_eq hn hle, format_center_eq hn hle,
   by omega, by omega⟩

/-- Witness for C9 at a concrete odd pad count (5): two spaces before,
three after. -/
theorem c9_witness :
    width "abc".data = some 3 ∧
    format "abc".data 0 .Center =
      some (spacesL ((max 0 8 - 3) / 2) ++ "abc".data ++
        spacesL ((max 0 8 - 3) - (max 0 8 - 3) / 2)) ∧
    (max 0 8 - 3) / 2 ≤ (max 0 8 - 3) - (max 0 8 - 3) / 2 :=
  ⟨by decide,
   (c9_alignment_placement "abc".data 0 3 (by decide) (by decide)).2.2.1,
   (c9_alignment_placement "abc".data 0 3 (by decide) (by decide)).2.2.2.1⟩

/-- Claim C10: no public operation ever sets `skip_header` — it is `false`
on every reachable table — so rendering a reachable row-phase table always
emits the header line (just the line terminator when there are no
headers). -/
theorem c10_skip_header_unreachable :
    (∀ (ph : Phase) (t : Table), Reachable ph t → t.skip_header = false) ∧
    (∀ t : Table, Reachable .rowPhase t →
      ∃ hl rl, renderHeaderFields t.headers t.column_widths = some hl ∧
        renderRows t.column_widths t.rows = some rl ∧
        render t = some ((hl ++ ['\n']) ++ rl) ∧
        (t.headers = [] → hl = [])) := by
  constructor
  · intro ph t h
    exact (reachable_inv h).1
  · intro t h
    obtain ⟨hskip, hlen, hhw, hrows, -⟩ := reachable_inv h
    obtain ⟨hl, hhl⟩ := renderHeaderFields_some hhw
    obtain ⟨rl, hrl⟩ := renderRows_some hrows
    refine ⟨hl, rl, hhl, hrl, ?_, ?_⟩
    · unfold render
      rw [if_neg (by rw [hskip]; simp), hhl]
      simp only [Option.map_some']
      simp only [hrl]
    · intro hempty
      rw [hempty, renderHeaderFields_nil_headers] at hhl
      exact (Option.some.inj hhl).symm

/-- Witness for C10 at the concrete reachable table `new().end_header()`,
which renders as a single empty header line. -/
theorem c10_witness :
    Table.new.end_header.skip_header = false ∧
    render Table.new.end_header = some ['\n'] := by
  have hreach : Reachable .rowPhase Table.new.end_header :=
    Reachable.endHeader Reachable.new
  refine ⟨c10_skip_header_unreachable.1 _ _ hreach, ?_⟩
  obtain ⟨hl, rl, hhl, hrl, hrender, -⟩ :=
    c10_skip_header_unreachable.2 _ hreach
  have h1 : hl = [] := by
    rw [show Table.new.end_header.headers = [] from rfl,
      renderHeaderFields_nil_headers] at hhl
    exact (Option.some.inj hhl).symm
  have h2 : rl = [] := by
    rw [show Table.new.end_header.rows = [] from rfl, renderRows_nil] at hrl
    exact (Option.some.inj hrl).symm
  rw [hrender, h1, h2]
  rfl

end Tabular2
